import Mathlib

/-!
Shallow embedding of `reframe/core/variables.py`, the variable-space
machinery of ReFrame regression tests.

Modelling conventions:
* Python values are an opaque type `V`; the `_Undefined` sentinel is
  modelled by `Option V`, with `none` playing the role of `_Undefined`
  and `some v` a real Python value.
* The per-variable field factory and its construction arguments are
  opaque payloads of types `F` and `A`.
* `TestVar` objects are mutable Python objects shared by reference
  between variable spaces (`join` copies the dictionary entries, which
  are references), so `TestVar`s live in an explicit heap
  `Heap F A V := Ref → TestVar F A V`, and namespaces map names to
  references.
* Python `dict`s are insertion-ordered association lists over `String`
  keys; `dictGet`, `dictSet`, `dictContains` mirror `d[k]`, `d[k] = v`
  and `k in d`.
* A method that mutates `self` in place and may raise `ValueError` is
  modelled as a function returning the (possibly partially) updated
  state together with an `Option VarError`; `none` means no exception
  was raised.  The error constructors carry the data interpolated into
  the corresponding `ValueError` message.
-/

/-- Heap addresses for `TestVar` objects. -/
abbrev Ref := Nat

/-- Embeds class `TestVar`: `field_type` / `args`+`kwargs` are the opaque
payloads passed to the field factory and `default_value` is either a real
value `some v` or the `_Undefined` sentinel `none`. -/
structure TestVar (F A V : Type) where
  field_type : F
  args : A
  default_value : Option V
deriving DecidableEq

/-- Embeds `TestVar.is_defined`: `self.default_value is not _Undefined`. -/
def TestVar.is_defined {F A V : Type} (tv : TestVar F A V) : Bool :=
  tv.default_value.isSome

/-- Embeds `TestVar.define`: `self.default_value = value` (the argument is a
raw Python value, so it may also be the `_Undefined` sentinel). -/
def TestVar.define {F A V : Type} (tv : TestVar F A V) (value : Option V) :
    TestVar F A V :=
  { tv with default_value := value }

/-- Embeds `TestVar.undefine`: `self.default_value = _Undefined`. -/
def TestVar.undefine {F A V : Type} (tv : TestVar F A V) : TestVar F A V :=
  { tv with default_value := none }

/-- One entry of a local variable space (`_rfm_local_var_space`): either a
`TestVar` declaration (a reference to the freshly allocated object), a
`DefineVar(default_value)` directive, or an `UndefineVar()` directive
(whose `default_value` attribute is `_Undefined`). -/
inductive LocalVar (V : Type) where
  | testVar (r : Ref)
  | defineVar (default_value : Option V)
  | undefineVar
deriving DecidableEq

/-- The `default_value` attribute read by `VarSpace.extend` on a
`DefineVar` / `UndefineVar` directive. -/
def LocalVar.directiveDefault {V : Type} : LocalVar V → Option V
  | .testVar _ => none
  | .defineVar v => v
  | .undefineVar => none

/-- A field descriptor instance bound on a class by `VarSpace.inject`:
`var.field_type(*var.args, **var.kwargs)` followed by `__set_name__`. -/
structure Slot (F A : Type) where
  field_type : F
  args : A
  name : String
deriving DecidableEq

/-- Errors raised by the variable-space machinery.  The source raises
`ValueError` with distinct messages; each constructor carries the data
the message interpolates.  The names follow the specification taxonomy. -/
inductive VarError where
  | duplicateDeclaration (key ctx : String)
  | redeclaration (key : String)
  | undeclaredVariable (key : String)
  | multipleActions (key : String)
  | nameClash (key ctx : String)
deriving DecidableEq

/-- Python `d[k]` lookup on an insertion-ordered dictionary (`none` when
the key is missing). -/
def dictGet {α : Type} : List (String × α) → String → Option α
  | [], _ => none
  | p :: rest, k => if p.1 = k then some p.2 else dictGet rest k

/-- Python `k in d`. -/
def dictContains {α : Type} (l : List (String × α)) (k : String) : Bool :=
  (dictGet l k).isSome

/-- Python `d[k] = v`: update in place if present, else append. -/
def dictSet {α : Type} : List (String × α) → String → α → List (String × α)
  | [], k, v => [(k, v)]
  | p :: rest, k, v => if p.1 = k then (k, v) :: rest else p :: dictSet rest k v

/-- The keys of a dictionary, in iteration order. -/
def dictKeys {α : Type} (l : List (String × α)) : List String :=
  l.map Prod.fst

/-- Python `s.add(k)` on a set (modelled as a duplicate-free list). -/
def setAdd (s : List String) (k : String) : List String :=
  if k ∈ s then s else s ++ [k]

/-- Python `s.update(t)` on a set. -/
def setUnion (s t : List String) : List String :=
  s ++ t.filter (fun k => decide (k ∉ s))

/-- The heap of live `TestVar` objects. -/
abbrev Heap (F A V : Type) := Ref → TestVar F A V

/-- In-place `self.vars[key].define(value)`: the object at `r` is mutated,
so every namespace holding a reference to `r` observes the change. -/
def heapDefine {F A V : Type} (h : Heap F A V) (r : Ref) (value : Option V) :
    Heap F A V :=
  fun r2 => if r2 = r then (h r).define value else h r2

/-- Embeds the target class as seen by `VarSpace`: its `__qualname__`,
its `dir(cls)` member names, its `_rfm_local_var_space` attribute, the
relevant entries of `cls.__dict__` (bare assignments in the class body),
and the field descriptors bound on it by `inject`. -/
structure PyCls (F A V : Type) where
  qualname : String
  members : List String
  local_var_space : List (String × LocalVar V)
  cls_dict : List (String × Option V)
  slots : List (String × Slot F A)
deriving DecidableEq

/-- Embeds the test instance: its attribute dictionary, holding the raw
Python values assigned by `inject`. -/
structure PyObj (V : Type) where
  attrs : List (String × Option V)
deriving DecidableEq

/-- Embeds class `VarSpace`: `self._namespace` (the `vars` property) maps
names to references to `TestVar` objects, and `self._injected_vars` is the
set of already injected names. -/
structure VarSpace where
  vars : List (String × Ref)
  injected_vars : List String
deriving DecidableEq

/-- A freshly initialized `VarSpace` (no target class). -/
def VarSpace.empty : VarSpace :=
  { vars := [], injected_vars := [] }

/-- The loop of `VarSpace.join`: insert each entry of `other`, raising
`DuplicateDeclarationError` as soon as a key is already present.  Returns
the (possibly partially) updated dictionary together with the error. -/
def joinAux : List (String × Ref) → List (String × Ref) → String →
    List (String × Ref) × Option VarError
  | vars, [], _ => (vars, none)
  | vars, (key, var) :: rest, ctx =>
    if dictContains vars key then
      (vars, some (.duplicateDeclaration key ctx))
    else
      joinAux (dictSet vars key var) rest ctx

/-- Embeds `VarSpace.join(other, cls)`; `ctx` is `cls.__qualname__`.  The
set of injected variables is carried over only after the loop finishes. -/
def VarSpace.join (self other : VarSpace) (ctx : String) :
    VarSpace × Option VarError :=
  match joinAux self.vars other.vars ctx with
  | (vars2, none) =>
    ({ vars := vars2,
       injected_vars := setUnion self.injected_vars other.injected_vars },
     none)
  | (vars2, some e) =>
    ({ vars := vars2, injected_vars := self.injected_vars }, some e)

/-- The first loop of `VarSpace.extend`, over `local_varspace.items()`:
a `TestVar` entry is a declaration (raise `RedeclarationError` if the key
is present, else insert); a `DefineVar`/`UndefineVar` directive requires
the key to be declared (else `UndeclaredVariableError`) and calls
`define(var.default_value)` on the shared object. -/
def extendLoop1 {F A V : Type} (h : Heap F A V) (vars : List (String × Ref)) :
    List (String × LocalVar V) →
      Heap F A V × List (String × Ref) × Option VarError
  | [] => (h, vars, none)
  | (key, .testVar r) :: rest =>
    if dictContains vars key then
      (h, vars, some (.redeclaration key))
    else
      extendLoop1 h (dictSet vars key r) rest
  | (key, .defineVar v) :: rest =>
    match dictGet vars key with
    | none => (h, vars, some (.undeclaredVariable key))
    | some r => extendLoop1 (heapDefine h r v) vars rest
  | (key, .undefineVar) :: rest =>
    match dictGet vars key with
    | none => (h, vars, some (.undeclaredVariable key))
    | some r => extendLoop1 (heapDefine h r none) vars rest

/-- The second loop of `VarSpace.extend`, over `cls.__dict__.items()`:
a key also present in the local variable space raises
`MultipleActionsError`; a key naming a declared variable has its value
defined from the bare assignment; any other key is skipped. -/
def extendLoop2 {F A V : Type} (h : Heap F A V) (vars : List (String × Ref))
    (localVS : List (String × LocalVar V)) :
    List (String × Option V) → Heap F A V × Option VarError
  | [] => (h, none)
  | (key, value) :: rest =>
    if dictContains localVS key then
      (h, some (.multipleActions key))
    else
      match dictGet vars key with
      | some r => extendLoop2 (heapDefine h r value) vars localVS rest
      | none => extendLoop2 h vars localVS rest

/-- Embeds `VarSpace.extend(cls)`: run the local-variable-space loop, then
the class-dictionary loop.  Returns the updated heap, the (possibly
partially) updated space, and the first error raised, if any. -/
def VarSpace.extend {F A V : Type} (self : VarSpace) (h : Heap F A V)
    (cls : PyCls F A V) : Heap F A V × VarSpace × Option VarError :=
  match extendLoop1 h self.vars cls.local_var_space with
  | (h1, vars1, some e) => (h1, { self with vars := vars1 }, some e)
  | (h1, vars1, none) =>
    match extendLoop2 h1 vars1 cls.local_var_space cls.cls_dict with
    | (h2, e) => (h2, { self with vars := vars1 }, e)

/-- The loop of `VarSpace.sanity` over the namespace keys. -/
def sanityLoop (illegal inj : List String) (ctx : String) :
    List String → Option VarError
  | [] => none
  | key :: rest =>
    if key ∈ illegal ∧ key ∉ inj then
      some (.nameClash key ctx)
    else
      sanityLoop illegal inj ctx rest

/-- Embeds `VarSpace.sanity(cls, illegal_names)`: when `illegal_names` is
`None` it defaults to `set(dir(cls))`, i.e. `cls.members`. -/
def VarSpace.sanity {F A V : Type} (self : VarSpace) (cls : PyCls F A V)
    (illegal_names : Option (List String)) : Option VarError :=
  sanityLoop (illegal_names.getD cls.members) self.injected_vars
    cls.qualname (dictKeys self.vars)

/-- The loop of `VarSpace.inject` over `self.items()`: bind a fresh field
descriptor on the class under `name` (and `__set_name__` it), assign the
default value on the instance if the variable is defined, and add `name`
to the set of injected variables. -/
def injectLoop {F A V : Type} (h : Heap F A V) :
    List (String × Ref) → PyCls F A V → PyObj V → List String →
      PyCls F A V × PyObj V × List String
  | [], cls, obj, inj => (cls, obj, inj)
  | (name, r) :: rest, cls, obj, inj =>
    let var := h r
    let cls2 : PyCls F A V :=
      { cls with
        slots := dictSet cls.slots name ⟨var.field_type, var.args, name⟩,
        members := setAdd cls.members name }
    let obj2 : PyObj V :=
      if var.is_defined then
        { obj with attrs := dictSet obj.attrs name var.default_value }
      else
        obj
    injectLoop h rest cls2 obj2 (setAdd inj name)

/-- Embeds `VarSpace.inject(obj, cls)`.  The namespace mapping `vars` is
read but never written; only `_injected_vars` grows. -/
def VarSpace.inject {F A V : Type} (self : VarSpace) (h : Heap F A V)
    (obj : PyObj V) (cls : PyCls F A V) :
    VarSpace × PyCls F A V × PyObj V :=
  match injectLoop h self.vars cls obj self.injected_vars with
  | (cls2, obj2, inj2) =>
    ({ self with injected_vars := inj2 }, cls2, obj2)

theorem dictGet_dictSet_self {α : Type} (l : List (String × α)) (k : String) (v : α) :
    dictGet (dictSet l k v) k = some v := by
  induction l with
  | nil => simp [dictSet, dictGet]
  | cons p rest ih =>
    by_cases hc : p.1 = k
    · simp [dictSet, hc, dictGet]
    · simp [dictSet, hc, dictGet, ih]

theorem dictGet_dictSet_ne {α : Type} (l : List (String × α)) (k k2 : String) (v : α)
    (hne : k2 ≠ k) : dictGet (dictSet l k v) k2 = dictGet l k2 := by
  induction l with
  | nil => simp [dictSet, dictGet, Ne.symm hne]
  | cons p rest ih =>
    by_cases hc : p.1 = k
    · subst hc
      simp [dictSet, dictGet, Ne.symm hne]
    · simp [dictSet, hc, dictGet, ih]

theorem dictSet_of_not_contains {α : Type} (l : List (String × α)) (k : String) (v : α)
    (hc : dictContains l k = false) : dictSet l k v = l ++ [(k, v)] := by
  induction l with
  | nil => simp [dictSet]
  | cons p rest ih =>
    simp only [dictContains, dictGet] at hc
    by_cases hp : p.1 = k
    · simp [hp] at hc
    · simp only [dictSet, hp, if_false]
      rw [ih]
      · simp
      · simpa [dictContains, hp] using hc

theorem dictGet_append_of_none {α : Type} (l m : List (String × α)) (k : String)
    (h : dictGet l k = none) : dictGet (l ++ m) k = dictGet m k := by
  induction l with
  | nil => simp
  | cons p rest ih =>
    simp only [dictGet] at h ⊢
    by_cases hp : p.1 = k
    · simp [hp] at h
    · simp only [hp, if_false] at h ⊢
      exact ih h

theorem dictGet_append_of_some {α : Type} (l m : List (String × α)) (k : String) (v : α)
    (h : dictGet l k = some v) : dictGet (l ++ m) k = some v := by
  induction l with
  | nil => simp [dictGet] at h
  | cons p rest ih =>
    simp only [dictGet] at h ⊢
    by_cases hp : p.1 = k
    · simpa [hp] using h
    · simp only [hp, if_false] at h ⊢
      exact ih h

theorem dictContains_iff_mem {α : Type} (l : List (String × α)) (k : String) :
    dictContains l k = true ↔ k ∈ dictKeys l := by
  induction l with
  | nil => simp [dictContains, dictGet, dictKeys]
  | cons p rest ih =>
    by_cases hp : p.1 = k
    · simp [dictContains, dictGet, dictKeys, hp]
    · simp only [dictContains, dictGet, hp, if_false, dictKeys, List.map_cons,
        List.mem_cons]
      rw [← dictKeys]
      constructor
      · intro h
        exact Or.inr ((ih).1 h)
      · intro h
        rcases h with h | h
        · exact absurd h.symm hp
        · exact (ih).2 h

theorem dictContains_false_iff {α : Type} (l : List (String × α)) (k : String) :
    dictContains l k = false ↔ k ∉ dictKeys l := by
  rw [← dictContains_iff_mem]
  cases h : dictContains l k <;> simp

theorem mem_setAdd (s : List String) (k k2 : String) :
    k2 ∈ setAdd s k ↔ k2 ∈ s ∨ k2 = k := by
  unfold setAdd
  by_cases h : k ∈ s
  · simp only [h, if_true]
    constructor
    · exact Or.inl
    · intro hh
      rcases hh with hh | hh
      · exact hh
      · exact hh ▸ h
  · simp [h]

theorem mem_setUnion (s t : List String) (k : String) :
    k ∈ setUnion s t ↔ k ∈ s ∨ k ∈ t := by
  unfold setUnion
  simp only [List.mem_append, List.mem_filter, decide_eq_true_eq]
  constructor
  · intro h
    rcases h with h | ⟨h, _⟩
    · exact Or.inl h
    · exact Or.inr h
  · intro h
    rcases h with h | h
    · exact Or.inl h
    · by_cases hs : k ∈ s
      · exact Or.inl hs
      · exact Or.inr ⟨h, hs⟩

theorem joinAux_of_disjoint (vars entries : List (String × Ref)) (ctx : String)
    (hd : ∀ k ∈ dictKeys entries, dictContains vars k = false)
    (hn : (dictKeys entries).Nodup) :
    joinAux vars entries ctx = (vars ++ entries, none) := by
  induction entries generalizing vars with
  | nil => simp [joinAux]
  | cons p rest ih =>
    obtain ⟨key, var⟩ := p
    have hkeys : dictKeys ((key, var) :: rest) = key :: dictKeys rest := by
      simp [dictKeys]
    have hk : dictContains vars key = false :=
      hd key (by rw [hkeys]; exact List.mem_cons_self key _)
    have hrest : ∀ k ∈ dictKeys rest, dictContains (dictSet vars key var) k = false := by
      intro k hkrest
      have hne : k ≠ key := by
        intro he
        subst he
        exact (List.nodup_cons.1 (by rwa [hkeys] at hn)).1 hkrest
      have hg : dictGet (dictSet vars key var) k = dictGet vars k :=
        dictGet_dictSet_ne vars key k var hne
      have hdk := hd k (by rw [hkeys]; exact List.mem_cons_of_mem _ hkrest)
      simp only [dictContains, hg]
      simpa [dictContains] using hdk
    have hnrest : (dictKeys rest).Nodup :=
      (List.nodup_cons.1 (by rwa [hkeys] at hn)).2
    simp only [joinAux, hk, Bool.false_eq_true, if_false]
    rw [ih (dictSet vars key var) hrest hnrest,
      dictSet_of_not_contains vars key var hk]
    simp

theorem joinAux_error_shape (vars entries : List (String × Ref)) (ctx : String)
    (e : VarError) (h : (joinAux vars entries ctx).2 = some e) :
    ∃ k, e = .duplicateDeclaration k ctx := by
  induction entries generalizing vars with
  | nil => simp [joinAux] at h
  | cons p rest ih =>
    obtain ⟨key, var⟩ := p
    by_cases hk : dictContains vars key = true
    · simp only [joinAux, hk, if_true] at h
      exact ⟨key, (Option.some_inj.1 h).symm⟩
    · simp only [joinAux, hk, if_false] at h
      exact ih _ h

theorem joinAux_overlap (vars entries : List (String × Ref)) (ctx : String)
    (k : String) (hk : k ∈ dictKeys entries) (hc : dictContains vars k = true) :
    (joinAux vars entries ctx).2 ≠ none := by
  induction entries generalizing vars with
  | nil => simp [dictKeys] at hk
  | cons p rest ih =>
    obtain ⟨key, var⟩ := p
    have hkeys : dictKeys ((key, var) :: rest) = key :: dictKeys rest := by
      simp [dictKeys]
    by_cases hck : dictContains vars key = true
    · simp [joinAux, hck]
    · have hne : k ≠ key := by
        intro he
        subst he
        exact hck hc
      have hkrest : k ∈ dictKeys rest := by
        rcases (by rw [hkeys] at hk; exact List.mem_cons.1 hk : k = key ∨ k ∈ dictKeys rest) with h | h
        · exact absurd h hne
        · exact h
      have hc2 : dictContains (dictSet vars key var) k = true := by
        simpa [dictContains, dictGet_dictSet_ne vars key k var hne] using hc
      simp only [joinAux, hck, Bool.false_eq_true, if_false]
      exact ih _ hkrest hc2

theorem joinAux_partial (vars entries : List (String × Ref)) (ctx : String) :
    ∃ pre suf, entries = pre ++ suf ∧
      (joinAux vars entries ctx).1 = vars ++ pre ∧
      ((joinAux vars entries ctx).2 = none → suf = []) := by
  induction entries generalizing vars with
  | nil => exact ⟨[], [], by simp [joinAux]⟩
  | cons p rest ih =>
    obtain ⟨key, var⟩ := p
    by_cases hk : dictContains vars key = true
    · exact ⟨[], (key, var) :: rest, by simp [joinAux, hk]⟩
    · have hkf : dictContains vars key = false := by
        cases h : dictContains vars key
        · rfl
        · exact absurd h hk
      obtain ⟨pre, suf, he, h1, h2⟩ := ih (dictSet vars key var)
      refine ⟨(key, var) :: pre, suf, by simp [he], ?_, ?_⟩
      · simp only [joinAux, hkf, Bool.false_eq_true, if_false]
        rw [h1, dictSet_of_not_contains vars key var hkf]
        simp
      · intro hnone
        apply h2
        simpa [joinAux, hkf] using hnone

theorem heapDefine_field_type {F A V : Type} (h : Heap F A V) (r : Ref)
    (v : Option V) (r2 : Ref) :
    ((heapDefine h r v) r2).field_type = (h r2).field_type := by
  unfold heapDefine
  by_cases he : r2 = r
  · simp [he, TestVar.define]
  · simp [he]

theorem heapDefine_args {F A V : Type} (h : Heap F A V) (r : Ref)
    (v : Option V) (r2 : Ref) :
    ((heapDefine h r v) r2).args = (h r2).args := by
  unfold heapDefine
  by_cases he : r2 = r
  · simp [he, TestVar.define]
  · simp [he]

theorem extendLoop1_fields {F A V : Type} (h : Heap F A V)
    (vars : List (String × Ref)) (l : List (String × LocalVar V)) (r : Ref) :
    ((extendLoop1 h vars l).1 r).field_type = (h r).field_type ∧
    ((extendLoop1 h vars l).1 r).args = (h r).args := by
  induction l generalizing h vars with
  | nil => simp [extendLoop1]
  | cons p rest ih =>
    obtain ⟨key, lv⟩ := p
    cases lv with
    | testVar r2 =>
      by_cases hc : dictContains vars key = true
      · simp [extendLoop1, hc]
      · simp only [extendLoop1, hc, Bool.false_eq_true, if_false]
        exact ih h (dictSet vars key r2)
    | defineVar v =>
      cases hg : dictGet vars key with
      | none => simp [extendLoop1, hg]
      | some r2 =>
        simp only [extendLoop1, hg]
        obtain ⟨h1, h2⟩ := ih (heapDefine h r2 v) vars
        exact ⟨by rw [h1, heapDefine_field_type], by rw [h2, heapDefine_args]⟩
    | undefineVar =>
      cases hg : dictGet vars key with
      | none => simp [extendLoop1, hg]
      | some r2 =>
        simp only [extendLoop1, hg]
        obtain ⟨h1, h2⟩ := ih (heapDefine h r2 none) vars
        exact ⟨by rw [h1, heapDefine_field_type], by rw [h2, heapDefine_args]⟩

theorem extendLoop2_fields {F A V : Type} (h : Heap F A V)
    (vars : List (String × Ref)) (localVS : List (String × LocalVar V))
    (cd : List (String × Option V)) (r : Ref) :
    ((extendLoop2 h vars localVS cd).1 r).field_type = (h r).field_type ∧
    ((extendLoop2 h vars localVS cd).1 r).args = (h r).args := by
  induction cd generalizing h with
  | nil => simp [extendLoop2]
  | cons p rest ih =>
    obtain ⟨key, value⟩ := p
    by_cases hc : dictContains localVS key = true
    · simp [extendLoop2, hc]
    · simp only [extendLoop2, hc, Bool.false_eq_true, if_false]
      cases hg : dictGet vars key with
      | none => exact ih h
      | some r2 =>
        obtain ⟨h1, h2⟩ := ih (heapDefine h r2 value)
        exact ⟨by rw [h1, heapDefine_field_type], by rw [h2, heapDefine_args]⟩

theorem extendLoop1_preserves {F A V : Type} (h : Heap F A V)
    (vars : List (String × Ref)) (l : List (String × LocalVar V))
    (k : String) (r : Ref) (hk : dictGet vars k = some r) :
    dictGet (extendLoop1 h vars l).2.1 k = some r := by
  induction l generalizing h vars with
  | nil => simpa [extendLoop1] using hk
  | cons p rest ih =>
    obtain ⟨key, lv⟩ := p
    cases lv with
    | testVar r2 =>
      by_cases hc : dictContains vars key = true
      · simpa [extendLoop1, hc] using hk
      · have hne : k ≠ key := by
          intro he
          subst he
          simp [dictContains, hk] at hc
        simp only [extendLoop1, hc, Bool.false_eq_true, if_false]
        exact ih h (dictSet vars key r2)
          (by rw [dictGet_dictSet_ne vars key k r2 hne]; exact hk)
    | defineVar v =>
      cases hg : dictGet vars key with
      | none => simpa [extendLoop1, hg] using hk
      | some r2 =>
        simp only [extendLoop1, hg]
        exact ih (heapDefine h r2 v) vars hk
    | undefineVar =>
      cases hg : dictGet vars key with
      | none => simpa [extendLoop1, hg] using hk
      | some r2 =>
        simp only [extendLoop1, hg]
        exact ih (heapDefine h r2 none) vars hk

theorem extendLoop1_append_none {F A V : Type} (h : Heap F A V)
    (vars : List (String × Ref)) (pre xs : List (String × LocalVar V))
    (h1 : Heap F A V) (v1 : List (String × Ref))
    (hpre : extendLoop1 h vars pre = (h1, v1, none)) :
    extendLoop1 h vars (pre ++ xs) = extendLoop1 h1 v1 xs := by
  induction pre generalizing h vars with
  | nil =>
    simp only [extendLoop1] at hpre
    injection hpre with ha hb
    injection hb with hb1 hb2
    subst ha
    subst hb1
    simp
  | cons p rest ih =>
    obtain ⟨key, lv⟩ := p
    cases lv with
    | testVar r =>
      by_cases hc : dictContains vars key = true
      · simp [extendLoop1, hc] at hpre
      · simp only [List.cons_append, extendLoop1, hc, Bool.false_eq_true,
          if_false] at hpre ⊢
        exact ih h (dictSet vars key r) hpre
    | defineVar v =>
      cases hg : dictGet vars key with
      | none => simp [extendLoop1, hg] at hpre
      | some r =>
        simp only [List.cons_append, extendLoop1, hg] at hpre ⊢
        exact ih (heapDefine h r v) vars hpre
    | undefineVar =>
      cases hg : dictGet vars key with
      | none => simp [extendLoop1, hg] at hpre
      | some r =>
        simp only [List.cons_append, extendLoop1, hg] at hpre ⊢
        exact ih (heapDefine h r none) vars hpre

theorem extendLoop2_conflict {F A V : Type} (h : Heap F A V)
    (vars : List (String × Ref)) (localVS : List (String × LocalVar V))
    (cd : List (String × Option V)) (k : String) (v : Option V)
    (hk : (k, v) ∈ cd) (hl : dictContains localVS k = true) :
    ∃ k2, dictContains localVS k2 = true ∧
      (extendLoop2 h vars localVS cd).2 = some (.multipleActions k2) := by
  induction cd generalizing h with
  | nil => simp at hk
  | cons p rest ih =>
    obtain ⟨key, value⟩ := p
    by_cases hc : dictContains localVS key = true
    · exact ⟨key, hc, by simp [extendLoop2, hc]⟩
    · have hmem : (k, v) ∈ rest := by
        rcases List.mem_cons.1 hk with he | he
        · rw [Prod.mk.injEq] at he
          rw [he.1] at hl
          exact absurd hl hc
        · exact he
      simp only [extendLoop2, hc, Bool.false_eq_true, if_false]
      cases hg : dictGet vars key with
      | none => exact ih h hmem
      | some r => exact ih (heapDefine h r value) hmem

theorem sanityLoop_eq_none_iff (illegal inj : List String) (ctx : String)
    (keys : List String) :
    sanityLoop illegal inj ctx keys = none ↔
      ∀ k ∈ keys, k ∈ illegal → k ∈ inj := by
  induction keys with
  | nil => simp [sanityLoop]
  | cons key rest ih =>
    by_cases hc : key ∈ illegal ∧ key ∉ inj
    · simp only [sanityLoop, if_pos hc]
      constructor
      · intro h
        exact absurd h (by simp)
      · intro h
        exact absurd (h key (List.mem_cons_self key rest) hc.1) hc.2
    · simp only [sanityLoop, if_neg hc, ih]
      constructor
      · intro h k hk hkil
        rcases List.mem_cons.1 hk with he | he
        · subst he
          by_cases hin : k ∈ inj
          · exact hin
          · exact absurd ⟨hkil, hin⟩ hc
        · exact h k he hkil
      · intro h k hk hkil
        exact h k (List.mem_cons_of_mem _ hk) hkil

theorem sanityLoop_some (illegal inj : List String) (ctx : String)
    (keys : List String) (e : VarError)
    (h : sanityLoop illegal inj ctx keys = some e) :
    ∃ k, k ∈ keys ∧ e = .nameClash k ctx ∧ k ∈ illegal ∧ k ∉ inj := by
  induction keys with
  | nil => simp [sanityLoop] at h
  | cons key rest ih =>
    by_cases hc : key ∈ illegal ∧ key ∉ inj
    · simp only [sanityLoop, if_pos hc] at h
      exact ⟨key, List.mem_cons_self key rest,
        (Option.some_inj.1 h).symm, hc.1, hc.2⟩
    · simp only [sanityLoop, if_neg hc] at h
      obtain ⟨k, hk, he, h1, h2⟩ := ih h
      exact ⟨k, List.mem_cons_of_mem _ hk, he, h1, h2⟩

theorem injectLoop_inj_mono {F A V : Type} (h : Heap F A V)
    (entries : List (String × Ref)) (cls : PyCls F A V) (obj : PyObj V)
    (inj : List String) (k : String) (hk : k ∈ inj) :
    k ∈ (injectLoop h entries cls obj inj).2.2 := by
  induction entries generalizing cls obj inj with
  | nil => simpa [injectLoop] using hk
  | cons p rest ih =>
    obtain ⟨name, r⟩ := p
    simp only [injectLoop]
    exact ih _ _ _ ((mem_setAdd inj name k).2 (Or.inl hk))

theorem injectLoop_slots_stable {F A V : Type} (h : Heap F A V)
    (entries : List (String × Ref)) (cls : PyCls F A V) (obj : PyObj V)
    (inj : List String) (name : String) (hk : name ∉ dictKeys entries) :
    dictGet (injectLoop h entries cls obj inj).1.slots name =
      dictGet cls.slots name ∧
    dictGet (injectLoop h entries cls obj inj).2.1.attrs name =
      dictGet obj.attrs name := by
  induction entries generalizing cls obj inj with
  | nil => simp [injectLoop]
  | cons p rest ih =>
    obtain ⟨n0, r⟩ := p
    have hne : name ≠ n0 := by
      intro he
      exact hk (by simp [dictKeys, he])
    have hrest : name ∉ dictKeys rest := by
      intro he
      exact hk (by simp [dictKeys] at he ⊢; exact Or.inr he)
    simp only [injectLoop]
    obtain ⟨h1, h2⟩ := ih
      { cls with
        slots := dictSet cls.slots n0 ⟨(h r).field_type, (h r).args, n0⟩,
        members := setAdd cls.members n0 }
      (if (h r).is_defined then
        { obj with attrs := dictSet obj.attrs n0 (h r).default_value }
       else obj)
      (setAdd inj n0) hrest
    constructor
    · rw [h1]
      exact dictGet_dictSet_ne cls.slots n0 name _ hne
    · rw [h2]
      by_cases hd : (h r).is_defined
      · simp only [hd, if_true]
        exact dictGet_dictSet_ne obj.attrs n0 name _ hne
      · simp [hd]

theorem injectLoop_spec {F A V : Type} (h : Heap F A V)
    (entries : List (String × Ref)) (cls : PyCls F A V) (obj : PyObj V)
    (inj : List String) (name : String) (r : Ref)
    (hn : (dictKeys entries).Nodup) (hm : (name, r) ∈ entries) :
    dictGet (injectLoop h entries cls obj inj).1.slots name =
      some ⟨(h r).field_type, (h r).args, name⟩ ∧
    dictGet (injectLoop h entries cls obj inj).2.1.attrs name =
      (if (h r).is_defined then some (h r).default_value
       else dictGet obj.attrs name) ∧
    name ∈ (injectLoop h entries cls obj inj).2.2 := by
  induction entries generalizing cls obj inj with
  | nil => simp at hm
  | cons p rest ih =>
    obtain ⟨n0, r0⟩ := p
    have hkeys : dictKeys ((n0, r0) :: rest) = n0 :: dictKeys rest := by
      simp [dictKeys]
    have hnodup := List.nodup_cons.1 (by rwa [hkeys] at hn)
    rcases List.mem_cons.1 hm with he | he
    · rw [Prod.mk.injEq] at he
      obtain ⟨he1, he2⟩ := he
      subst he1
      subst he2
      simp only [injectLoop]
      obtain ⟨h1, h2⟩ := injectLoop_slots_stable h rest
        { cls with
          slots := dictSet cls.slots name ⟨(h r).field_type, (h r).args, name⟩,
          members := setAdd cls.members name }
        (if (h r).is_defined then
          { obj with attrs := dictSet obj.attrs name (h r).default_value }
         else obj)
        (setAdd inj name) name hnodup.1
      refine ⟨?_, ?_, ?_⟩
      · rw [h1]
        exact dictGet_dictSet_self cls.slots name _
      · rw [h2]
        by_cases hd : (h r).is_defined
        · simp only [hd, if_true]
          exact dictGet_dictSet_self obj.attrs name _
        · simp [hd]
      · exact injectLoop_inj_mono h rest _ _ _ name
          ((mem_setAdd inj name name).2 (Or.inr rfl))
    · have hnin : name ∈ dictKeys rest := by
        simp only [dictKeys, List.mem_map]
        exact ⟨(name, r), he, rfl⟩
      have hne : name ≠ n0 := by
        intro heq
        subst heq
        exact hnodup.1 hnin
      simp only [injectLoop]
      obtain ⟨g1, g2, g3⟩ := ih
        { cls with
          slots := dictSet cls.slots n0 ⟨(h r0).field_type, (h r0).args, n0⟩,
          members := setAdd cls.members n0 }
        (if (h r0).is_defined then
          { obj with attrs := dictSet obj.attrs n0 (h r0).default_value }
         else obj)
        (setAdd inj n0) hnodup.2 he
      refine ⟨g1, ?_, g3⟩
      rw [g2]
      have hobj : dictGet
          (if (h r0).is_defined then
            { obj with attrs := dictSet obj.attrs n0 (h r0).default_value }
           else obj : PyObj V).attrs name = dictGet obj.attrs name := by
        by_cases hd0 : (h r0).is_defined
        · simp only [hd0, if_true]
          exact dictGet_dictSet_ne obj.attrs n0 name _ hne
        · simp [hd0]
      rw [hobj]

theorem extend_fields {F A V : Type} (self : VarSpace) (h : Heap F A V)
    (cls : PyCls F A V) (r : Ref) :
    (((self.extend h cls).1) r).field_type = (h r).field_type ∧
    (((self.extend h cls).1) r).args = (h r).args := by
  unfold VarSpace.extend
  rcases hres : extendLoop1 h self.vars cls.local_var_space with ⟨h1, v1, e⟩
  obtain ⟨hf1, ha1⟩ := extendLoop1_fields h self.vars cls.local_var_space r
  rw [hres] at hf1 ha1
  cases e with
  | some err => simpa using ⟨hf1, ha1⟩
  | none =>
    rcases hres2 : extendLoop2 h1 v1 cls.local_var_space cls.cls_dict
      with ⟨h2, e2⟩
    obtain ⟨hf2, ha2⟩ := extendLoop2_fields h1 v1 cls.local_var_space
      cls.cls_dict r
    rw [hres2] at hf2 ha2
    simp only [hres2]
    exact ⟨by simp at hf2 hf1 ⊢; rw [hf2, hf1],
      by simp at ha2 ha1 ⊢; rw [ha2, ha1]⟩

theorem extend_vars_eq {F A V : Type} (self : VarSpace) (h : Heap F A V)
    (cls : PyCls F A V) :
    (self.extend h cls).2.1.vars =
      (extendLoop1 h self.vars cls.local_var_space).2.1 ∧
    (self.extend h cls).2.1.injected_vars = self.injected_vars := by
  unfold VarSpace.extend
  rcases hres : extendLoop1 h self.vars cls.local_var_space with ⟨h1, v1, e⟩
  cases e with
  | some err => simp
  | none =>
    rcases hres2 : extendLoop2 h1 v1 cls.local_var_space cls.cls_dict
      with ⟨h2, e2⟩
    simp

theorem join_err_eq (self other : VarSpace) (ctx : String) :
    (self.join other ctx).2 = (joinAux self.vars other.vars ctx).2 := by
  unfold VarSpace.join
  rcases joinAux self.vars other.vars ctx with ⟨v, e⟩
  cases e <;> simp

theorem join_vars_eq (self other : VarSpace) (ctx : String) :
    (self.join other ctx).1.vars = (joinAux self.vars other.vars ctx).1 := by
  unfold VarSpace.join
  rcases joinAux self.vars other.vars ctx with ⟨v, e⟩
  cases e <;> simp

theorem join_of_joinAux_none (self other : VarSpace) (ctx : String)
    (v : List (String × Ref))
    (hres : joinAux self.vars other.vars ctx = (v, none)) :
    self.join other ctx =
      ({ vars := v,
         injected_vars := setUnion self.injected_vars other.injected_vars },
       none) := by
  unfold VarSpace.join
  rw [hres]

/-- C5: joining two composed namespaces whose variable-name sets overlap
raises `DuplicateDeclarationError` naming the context class, in either
join order; in particular, declaring the same name in two distinct
ancestors of one definition (joined one after the other into a fresh
space) always fails. -/
theorem c5_join_duplicate_declaration (self other : VarSpace)
    (ctx ctx2 : String) (k : String)
    (h1 : dictContains self.vars k = true)
    (h2 : dictContains other.vars k = true) :
    (∃ k2, (self.join other ctx).2 = some (.duplicateDeclaration k2 ctx)) ∧
    (∃ k2, (other.join self ctx).2 = some (.duplicateDeclaration k2 ctx)) ∧
    ((dictKeys self.vars).Nodup →
      (VarSpace.empty.join self ctx).2 = none ∧
      ∃ k2, ((VarSpace.empty.join self ctx).1.join other ctx2).2 =
        some (.duplicateDeclaration k2 ctx2)) := by
  have main : ∀ (a b : VarSpace) (c : String),
      dictContains a.vars k = true → dictContains b.vars k = true →
      ∃ k2, (a.join b c).2 = some (.duplicateDeclaration k2 c) := by
    intro a b c ha hb
    have hmem : k ∈ dictKeys b.vars := (dictContains_iff_mem b.vars k).1 hb
    have hne := joinAux_overlap a.vars b.vars c k hmem ha
    rcases he : (joinAux a.vars b.vars c).2 with _ | e
    · exact absurd he hne
    · obtain ⟨k2, hk2⟩ := joinAux_error_shape a.vars b.vars c e he
      exact ⟨k2, by rw [join_err_eq, he, hk2]⟩
  refine ⟨main self other ctx h1 h2, main other self ctx h2 h1, ?_⟩
  intro hnodup
  have hdisj : ∀ k2 ∈ dictKeys self.vars,
      dictContains (VarSpace.empty.vars) k2 = false := by
    intro k2 _
    rfl
  have hres := joinAux_of_disjoint VarSpace.empty.vars self.vars ctx hdisj hnodup
  have hjoin := join_of_joinAux_none VarSpace.empty self ctx _ hres
  constructor
  · rw [hjoin]
  · have hvars : (VarSpace.empty.join self ctx).1.vars = self.vars := by
      rw [hjoin]
      simp [VarSpace.empty]
    exact main _ other ctx2 (by rw [hvars]; exact h1) h2

theorem c5_join_duplicate_declaration_witness :
    (∃ k2, ((⟨[("x", 0)], []⟩ : VarSpace).join ⟨[("x", 1)], []⟩ "C").2 =
      some (.duplicateDeclaration k2 "C")) ∧
    (∃ k2, ((⟨[("x", 1)], []⟩ : VarSpace).join ⟨[("x", 0)], []⟩ "C").2 =
      some (.duplicateDeclaration k2 "C")) ∧
    ((dictKeys [("x", (0 : Ref))]).Nodup →
      (VarSpace.empty.join ⟨[("x", 0)], []⟩ "C").2 = none ∧
      ∃ k2, ((VarSpace.empty.join ⟨[("x", 0)], []⟩ "C").1.join
        ⟨[("x", 1)], []⟩ "D").2 = some (.duplicateDeclaration k2 "D")) :=
  c5_join_duplicate_declaration ⟨[("x", 0)], []⟩ ⟨[("x", 1)], []⟩ "C" "D" "x"
    (by decide) (by decide)

/-- C6: for every composed namespace and target class, the sanity check
raises `NameClashError` exactly when some namespace name is in the
reserved-name set (defaulting, when none is supplied, to the member
names visible on the target class) and is not in the injected-names
set; names already in the injected-names set never raise. -/
theorem c6_sanity_name_clash {F A V : Type} (self : VarSpace)
    (cls : PyCls F A V) (illegal_names : Option (List String)) :
    (self.sanity cls illegal_names = none ↔
      ∀ k ∈ dictKeys self.vars,
        k ∈ illegal_names.getD cls.members → k ∈ self.injected_vars) ∧
    (∀ e, self.sanity cls illegal_names = some e →
      ∃ k, k ∈ dictKeys self.vars ∧ e = .nameClash k cls.qualname ∧
        k ∈ illegal_names.getD cls.members ∧ k ∉ self.injected_vars) := by
  constructor
  · exact sanityLoop_eq_none_iff (illegal_names.getD cls.members)
      self.injected_vars cls.qualname (dictKeys self.vars)
  · intro e he
    exact sanityLoop_some (illegal_names.getD cls.members)
      self.injected_vars cls.qualname (dictKeys self.vars) e he

theorem c6_sanity_name_clash_witness :
    (VarSpace.sanity (F := Nat) (A := Nat) (V := Nat)
      ⟨[("z", 0)], ["z"]⟩ ⟨"C", ["z", "w"], [], [], []⟩ none = none) ∧
    (∃ k, k ∈ dictKeys [("y", (1 : Ref))] ∧
      VarError.nameClash "y" "D" = .nameClash k "D" ∧
      k ∈ (["y"] : List String) ∧ k ∉ ([] : List String)) := by
  constructor
  · exact (c6_sanity_name_clash (F := Nat) (A := Nat) (V := Nat)
      ⟨[("z", 0)], ["z"]⟩ ⟨"C", ["z", "w"], [], [], []⟩ none).1.mpr (by decide)
  · exact (c6_sanity_name_clash (F := Nat) (A := Nat) (V := Nat)
      ⟨[("y", 1)], []⟩ ⟨"D", ["y"], [], [], []⟩ none).2
      (.nameClash "y" "D") (by decide)

/-- C10: joining either of two composed namespaces with disjoint
variable-name sets into the other raises no error, and both orders
produce the same name-to-variable mapping (as a set of pairs) and the
same union of injected-names sets; only iteration order may differ. -/
theorem c10_join_commutes_on_disjoint (a b : VarSpace) (ctx1 ctx2 : String)
    (hd : ∀ k ∈ dictKeys a.vars, k ∉ dictKeys b.vars)
    (hna : (dictKeys a.vars).Nodup) (hnb : (dictKeys b.vars).Nodup) :
    (a.join b ctx1).2 = none ∧ (b.join a ctx2).2 = none ∧
    (∀ p, p ∈ (a.join b ctx1).1.vars ↔ p ∈ (b.join a ctx2).1.vars) ∧
    (∀ k, k ∈ (a.join b ctx1).1.injected_vars ↔
      k ∈ (b.join a ctx2).1.injected_vars) := by
  have hresab := joinAux_of_disjoint a.vars b.vars ctx1
    (fun k hk => (dictContains_false_iff a.vars k).2
      (fun hka => hd k hka hk)) hnb
  have hresba := joinAux_of_disjoint b.vars a.vars ctx2
    (fun k hk => (dictContains_false_iff b.vars k).2 (hd k hk)) hna
  have hab := join_of_joinAux_none a b ctx1 _ hresab
  have hba := join_of_joinAux_none b a ctx2 _ hresba
  rw [hab, hba]
  refine ⟨rfl, rfl, ?_, ?_⟩
  · intro p
    simp [List.mem_append, or_comm]
  · intro k
    simp only [mem_setUnion]
    exact or_comm

theorem c10_join_commutes_on_disjoint_witness :
    ((⟨[("x", 0)], ["i"]⟩ : VarSpace).join ⟨[("y", 1)], ["j"]⟩ "C").2 = none ∧
    ((⟨[("y", 1)], ["j"]⟩ : VarSpace).join ⟨[("x", 0)], ["i"]⟩ "D").2 = none ∧
    (∀ p, p ∈ ((⟨[("x", 0)], ["i"]⟩ : VarSpace).join
        ⟨[("y", 1)], ["j"]⟩ "C").1.vars ↔
      p ∈ ((⟨[("y", 1)], ["j"]⟩ : VarSpace).join
        ⟨[("x", 0)], ["i"]⟩ "D").1.vars) ∧
    (∀ k, k ∈ ((⟨[("x", 0)], ["i"]⟩ : VarSpace).join
        ⟨[("y", 1)], ["j"]⟩ "C").1.injected_vars ↔
      k ∈ ((⟨[("y", 1)], ["j"]⟩ : VarSpace).join
        ⟨[("x", 0)], ["i"]⟩ "D").1.injected_vars) :=
  c10_join_commutes_on_disjoint ⟨[("x", 0)], ["i"]⟩ ⟨[("y", 1)], ["j"]⟩ "C" "D"
    (by decide) (by decide) (by decide)

theorem extend_err_of_loop1 {F A V : Type} (self : VarSpace) (h : Heap F A V)
    (cls : PyCls F A V) (h1 : Heap F A V) (v1 : List (String × Ref))
    (e : VarError)
    (hres : extendLoop1 h self.vars cls.local_var_space = (h1, v1, some e)) :
    (self.extend h cls).2.2 = some e := by
  unfold VarSpace.extend
  rw [hres]

/-- C7: `inject` binds, for each (name, variable) in iteration order, a
slot built from the variable's field factory (and `__set_name__`-ed with
that name) onto the target class, assigns the variable's default value to
the instance exactly when the variable is defined, adds the name to the
injected-names set, and leaves the name-to-variable mapping unchanged. -/
theorem c7_inject_materializes {F A V : Type} (self : VarSpace)
    (h : Heap F A V) (obj : PyObj V) (cls : PyCls F A V)
    (hn : (dictKeys self.vars).Nodup) :
    (self.inject h obj cls).1.vars = self.vars ∧
    (∀ name r, (name, r) ∈ self.vars →
      dictGet (self.inject h obj cls).2.1.slots name =
        some ⟨(h r).field_type, (h r).args, name⟩ ∧
      dictGet (self.inject h obj cls).2.2.attrs name =
        (if (h r).is_defined then some (h r).default_value
         else dictGet obj.attrs name) ∧
      name ∈ (self.inject h obj cls).1.injected_vars) ∧
    (∀ k ∈ self.injected_vars, k ∈ (self.inject h obj cls).1.injected_vars) := by
  rcases hres : injectLoop h self.vars cls obj self.injected_vars
    with ⟨cls2, obj2, inj2⟩
  have hval : self.inject h obj cls =
      ({ self with injected_vars := inj2 }, cls2, obj2) := by
    unfold VarSpace.inject
    rw [hres]
  rw [hval]
  refine ⟨rfl, ?_, ?_⟩
  · intro name r hm
    obtain ⟨g1, g2, g3⟩ := injectLoop_spec h self.vars cls obj
      self.injected_vars name r hn hm
    rw [hres] at g1 g2 g3
    exact ⟨g1, g2, g3⟩
  · intro k hk
    have hmono := injectLoop_inj_mono h self.vars cls obj
      self.injected_vars k hk
    rw [hres] at hmono
    exact hmono

theorem c7_inject_materializes_witness :
    let h0 : Heap Nat Nat Nat := fun r => ⟨7, 8, if r = 0 then some 5 else none⟩
    let vs : VarSpace := ⟨[("x", 0), ("y", 1)], ["old"]⟩
    let cls : PyCls Nat Nat Nat := ⟨"C", [], [], [], []⟩
    let obj : PyObj Nat := ⟨[]⟩
    (vs.inject h0 obj cls).1.vars = vs.vars ∧
    (∀ name r, (name, r) ∈ vs.vars →
      dictGet (vs.inject h0 obj cls).2.1.slots name =
        some ⟨(h0 r).field_type, (h0 r).args, name⟩ ∧
      dictGet (vs.inject h0 obj cls).2.2.attrs name =
        (if (h0 r).is_defined then some (h0 r).default_value
         else dictGet obj.attrs name) ∧
      name ∈ (vs.inject h0 obj cls).1.injected_vars) ∧
    (∀ k ∈ vs.injected_vars, k ∈ (vs.inject h0 obj cls).1.injected_vars) :=
  c7_inject_materializes ⟨[("x", 0), ("y", 1)], ["old"]⟩
    (fun r => ⟨7, 8, if r = 0 then some 5 else none⟩) ⟨[]⟩ ⟨"C", [], [], [], []⟩
    (by decide)

/-- C8: a variable declared with no default is undefined; `define`
stores the given value and makes it defined; `undefine` makes it
undefined and is idempotent.  Declaring `x` with a default and applying a
`DefineVar` in a descendant yields that new default with the variable
defined, and a further `UndefineVar` leaves it undefined. -/
theorem c8_define_undefine_roundtrip {F A V : Type} :
    (∀ (f : F) (a : A), (⟨f, a, none⟩ : TestVar F A V).is_defined = false) ∧
    (∀ (tv : TestVar F A V) (v : V),
      (tv.define (some v)).is_defined = true ∧
      (tv.define (some v)).default_value = some v) ∧
    (∀ tv : TestVar F A V,
      tv.undefine.is_defined = false ∧ tv.undefine.undefine = tv.undefine) ∧
    (∀ (f : F) (a : A) (v1 v2 : V),
      let h0 : Heap F A V := fun _ => ⟨f, a, some v1⟩
      let st1 := VarSpace.empty.extend h0
        ⟨"Base", [], [("x", .testVar 0)], [], []⟩
      let st2 := (VarSpace.empty.join st1.2.1 "Mid").1.extend st1.1
        ⟨"Mid", [], [("x", .defineVar (some v2))], [], []⟩
      let st3 := (VarSpace.empty.join st2.2.1 "Leaf").1.extend st2.1
        ⟨"Leaf", [], [("x", .undefineVar)], [], []⟩
      st1.2.2 = none ∧ ((st1.1) 0).default_value = some v1 ∧
      st2.2.2 = none ∧ ((st2.1) 0).default_value = some v2 ∧
      ((st2.1) 0).is_defined = true ∧
      st3.2.2 = none ∧ ((st3.1) 0).is_defined = false) :=
  ⟨fun _ _ => rfl,
   fun _ _ => ⟨rfl, rfl⟩,
   fun _ => ⟨rfl, rfl⟩,
   fun _ _ _ _ => ⟨rfl, rfl, rfl, rfl, rfl, rfl, rfl⟩⟩

/-- C9: a `TestVar` declaration processed by `extend` whose name is
already present in the composed namespace fails with
`RedeclarationError`; when the name is absent, the new variable is
inserted into the namespace. -/
theorem c9_declare_redeclaration {F A V : Type} (self : VarSpace)
    (h h1 : Heap F A V) (vars1 : List (String × Ref)) (qn : String)
    (mem : List String) (pre rest : List (String × LocalVar V)) (k : String)
    (r : Ref) (cd : List (String × Option V)) (slots : List (String × Slot F A))
    (hpre : extendLoop1 h self.vars pre = (h1, vars1, none)) :
    (dictContains vars1 k = true →
      (self.extend h
        ⟨qn, mem, pre ++ (k, .testVar r) :: rest, cd, slots⟩).2.2 =
        some (.redeclaration k)) ∧
    (dictContains vars1 k = false →
      dictGet (self.extend h
        ⟨qn, mem, pre ++ (k, .testVar r) :: rest, cd, slots⟩).2.1.vars k =
        some r) := by
  have hstep : extendLoop1 h self.vars (pre ++ (k, .testVar r) :: rest) =
      extendLoop1 h1 vars1 ((k, .testVar r) :: rest) :=
    extendLoop1_append_none h self.vars pre ((k, .testVar r) :: rest)
      h1 vars1 hpre
  constructor
  · intro hck
    have herr : extendLoop1 h1 vars1 ((k, .testVar r) :: rest) =
        (h1, vars1, some (.redeclaration k)) := by
      simp [extendLoop1, hck]
    exact extend_err_of_loop1 self h
      ⟨qn, mem, pre ++ (k, .testVar r) :: rest, cd, slots⟩ h1 vars1 _
      (hstep.trans herr)
  · intro hck
    have hstep2 : extendLoop1 h1 vars1 ((k, .testVar r) :: rest) =
        extendLoop1 h1 (dictSet vars1 k r) rest := by
      simp [extendLoop1, hck]
    have hget : dictGet (extendLoop1 h1 (dictSet vars1 k r) rest).2.1 k =
        some r :=
      extendLoop1_preserves h1 (dictSet vars1 k r) rest k r
        (dictGet_dictSet_self vars1 k r)
    rw [(extend_vars_eq self h
      ⟨qn, mem, pre ++ (k, .testVar r) :: rest, cd, slots⟩).1]
    show dictGet
      (extendLoop1 h self.vars (pre ++ (k, .testVar r) :: rest)).2.1 k = some r
    rw [hstep, hstep2]
    exact hget

theorem c9_declare_redeclaration_witness :
    let h0 : Heap Nat Nat Nat := fun _ => ⟨0, 0, none⟩
    (dictContains [("x", (5 : Ref))] "x" = true →
      (VarSpace.extend ⟨[("x", 5)], []⟩ h0
        ⟨"C", [], [] ++ ("x", .testVar 9) :: [], [], []⟩).2.2 =
        some (.redeclaration "x")) ∧
    (dictContains [("x", (5 : Ref))] "x" = false →
      dictGet (VarSpace.extend ⟨[("x", 5)], []⟩ h0
        ⟨"C", [], [] ++ ("x", .testVar 9) :: [], [], []⟩).2.1.vars "x" =
        some 9) :=
  c9_declare_redeclaration ⟨[("x", 5)], []⟩ (fun _ => ⟨0, 0, none⟩)
    (fun _ => ⟨0, 0, none⟩) [("x", 5)] "C" [] [] [] "x" 9 [] [] rfl

/-- C1 (code evaluated at the failing input): `join` copies dictionary
entries, which are references, so ancestor and descendant share the same
`TestVar` object.  After the descendant, whose namespace was built by
joining the ancestor's, applies `DefineVar(2)` to the inherited `x`
(declared in the ancestor with default 1), the object both namespaces
map `x` to has default value 2: the ancestor's composed namespace
observably changed, contradicting copy-on-join/never-aliased. -/
theorem c1_join_aliases_variables :
    let h0 : Heap Nat Nat Nat := fun _ => ⟨0, 0, some 1⟩
    let parent : VarSpace := ⟨[("x", 0)], []⟩
    let childCls : PyCls Nat Nat Nat :=
      ⟨"Child", [], [("x", .defineVar (some 2))], [], []⟩
    let joined := VarSpace.empty.join parent "Child"
    let extended := joined.1.extend h0 childCls
    joined.2 = none ∧ extended.2.2 = none ∧
    dictGet joined.1.vars "x" = dictGet parent.vars "x" ∧
    dictGet parent.vars "x" = some 0 ∧
    (h0 0).default_value = some 1 ∧
    ((extended.1) 0).default_value = some 2 := by
  decide

/-- C2 counterexample: contrary to the claimed exception, a variable
freshly declared in a definition body that also receives a
bare-assignment default in the same body makes `extend` fail with
`MultipleActionsError`. -/
theorem c2_fresh_declare_bare_assign_errors :
    let h0 : Heap Nat Nat Nat := fun _ => ⟨0, 0, none⟩
    let cls : PyCls Nat Nat Nat :=
      ⟨"C", [], [("x", .testVar 0)], [("x", some 5)], []⟩
    (VarSpace.empty.extend h0 cls).2.2 = some (.multipleActions "x") := by
  decide

/-- C2 (amended): if the local-variable-space loop finishes without
error, any name that occurs both in the local variable space (whether as
a declaration or as a directive) and in the class body's dictionary makes
`extend` fail with `MultipleActionsError`; there is no exception for
freshly declared variables. -/
theorem c2_multiple_actions {F A V : Type} (self : VarSpace) (h : Heap F A V)
    (cls : PyCls F A V) (k : String) (v : Option V)
    (hok : (extendLoop1 h self.vars cls.local_var_space).2.2 = none)
    (hk : (k, v) ∈ cls.cls_dict)
    (hl : dictContains cls.local_var_space k = true) :
    ∃ k2, dictContains cls.local_var_space k2 = true ∧
      (self.extend h cls).2.2 = some (.multipleActions k2) := by
  rcases hres : extendLoop1 h self.vars cls.local_var_space with ⟨h1, v1, e⟩
  cases e with
  | some err =>
    rw [hres] at hok
    simp at hok
  | none =>
    obtain ⟨k2, hk2, herr⟩ := extendLoop2_conflict h1 v1
      cls.local_var_space cls.cls_dict k v hk hl
    refine ⟨k2, hk2, ?_⟩
    unfold VarSpace.extend
    rw [hres]
    rcases hres2 : extendLoop2 h1 v1 cls.local_var_space cls.cls_dict
      with ⟨h2, e2⟩
    rw [hres2] at herr
    simp only [hres2]
    simpa using herr

theorem c2_multiple_actions_witness :
    ∃ k2, dictContains [("x", LocalVar.testVar (V := Nat) 0)] k2 = true ∧
      (VarSpace.extend VarSpace.empty (fun _ => (⟨0, 0, none⟩ : TestVar Nat Nat Nat))
        ⟨"C", [], [("x", .testVar 0)], [("x", some 5)], []⟩).2.2 =
        some (.multipleActions k2) :=
  c2_multiple_actions VarSpace.empty (fun _ => ⟨0, 0, none⟩)
    ⟨"C", [], [("x", .testVar 0)], [("x", some 5)], []⟩ "x" (some 5)
    (by decide) (by decide) (by decide)

/-- C3 counterexample: a failing `join` does not leave the namespace
under construction unchanged — the entries of `other` that precede the
offending one stay inserted. -/
theorem c3_join_error_mutates :
    ((⟨[("b", 1)], []⟩ : VarSpace).join ⟨[("a", 0), ("b", 2)], []⟩ "C").2 =
      some (.duplicateDeclaration "b" "C") ∧
    ((⟨[("b", 1)], []⟩ : VarSpace).join ⟨[("a", 0), ("b", 2)], []⟩ "C").1.vars =
      [("b", 1), ("a", 0)] ∧
    ((⟨[("b", 1)], []⟩ : VarSpace).join
      ⟨[("a", 0), ("b", 2)], []⟩ "C").1.vars ≠ [("b", 1)] := by
  decide

/-- C4 counterexample: a bare assignment whose target name is not
present in the composed namespace is silently skipped by `extend` — no
`UndeclaredVariableError` is raised and the namespace is unchanged. -/
theorem c4_bare_assignment_to_undeclared_is_skipped :
    let h0 : Heap Nat Nat Nat := fun _ => ⟨0, 0, none⟩
    let cls : PyCls Nat Nat Nat := ⟨"C", [], [], [("y", some 5)], []⟩
    (VarSpace.empty.extend h0 cls).2.2 = none ∧
    (VarSpace.empty.extend h0 cls).2.1 = VarSpace.empty := by
  decide

theorem joinAux_partial_exact (vars entries : List (String × Ref)) (ctx : String) :
    ∃ pre suf, entries = pre ++ suf ∧
      (joinAux vars entries ctx).1 = vars ++ pre ∧
      ((joinAux vars entries ctx).2 = none ↔ suf = []) ∧
      (∀ key r rest, suf = (key, r) :: rest →
        dictContains (vars ++ pre) key = true ∧
        (joinAux vars entries ctx).2 = some (.duplicateDeclaration key ctx)) := by
  induction entries generalizing vars with
  | nil =>
    refine ⟨[], [], by simp, by simp [joinAux], by simp [joinAux], ?_⟩
    intro key r rest hsuf
    exact absurd hsuf (by simp)
  | cons p rest ih =>
    obtain ⟨key, var⟩ := p
    by_cases hk : dictContains vars key = true
    · refine ⟨[], (key, var) :: rest, by simp, by simp [joinAux, hk],
        by simp [joinAux, hk], ?_⟩
      intro key2 r2 rest2 hsuf
      rw [List.cons.injEq, Prod.mk.injEq] at hsuf
      obtain ⟨⟨he1, he2⟩, he3⟩ := hsuf
      subst he1
      constructor
      · simpa using hk
      · simp [joinAux, hk]
    · have hkf : dictContains vars key = false := by
        cases h : dictContains vars key
        · rfl
        · exact absurd h hk
      obtain ⟨pre, suf, he, h1, h2, h3⟩ := ih (dictSet vars key var)
      have hset : dictSet vars key var = vars ++ [(key, var)] :=
        dictSet_of_not_contains vars key var hkf
      refine ⟨(key, var) :: pre, suf, by simp [he], ?_, ?_, ?_⟩
      · simp only [joinAux, hkf, Bool.false_eq_true, if_false]
        rw [h1, hset]
        simp
      · simp only [joinAux, hkf, Bool.false_eq_true, if_false]
        exact h2
      · intro key2 r2 rest2 hsuf
        obtain ⟨hc2, herr2⟩ := h3 key2 r2 rest2 hsuf
        constructor
        · rw [hset, List.append_assoc] at hc2
          simpa using hc2
        · simp only [joinAux, hkf, Bool.false_eq_true, if_false]
          exact herr2

theorem extendLoop1_partial {F A V : Type} (h : Heap F A V)
    (vars : List (String × Ref)) (l : List (String × LocalVar V)) :
    ∃ pre suf h1 vars1,
      l = pre ++ suf ∧
      extendLoop1 h vars pre = (h1, vars1, none) ∧
      ((extendLoop1 h vars l).2.2 = none ↔ suf = []) ∧
      (∀ p rest, suf = p :: rest →
        ∃ e, extendLoop1 h1 vars1 [p] = (h1, vars1, some e) ∧
          extendLoop1 h vars l = (h1, vars1, some e)) := by
  induction l generalizing h vars with
  | nil =>
    refine ⟨[], [], h, vars, by simp, by simp [extendLoop1],
      by simp [extendLoop1], ?_⟩
    intro p rest hsuf
    exact absurd hsuf (by simp)
  | cons p rest ih =>
    obtain ⟨key, lv⟩ := p
    cases lv with
    | testVar r =>
      by_cases hc : dictContains vars key = true
      · refine ⟨[], (key, .testVar r) :: rest, h, vars, by simp,
          by simp [extendLoop1], by simp [extendLoop1, hc], ?_⟩
        intro p2 rest2 hsuf
        rw [List.cons.injEq] at hsuf
        obtain ⟨he1, he2⟩ := hsuf
        subst he1
        exact ⟨.redeclaration key, by simp [extendLoop1, hc],
          by simp [extendLoop1, hc]⟩
      · obtain ⟨pre, suf, h1, vars1, he, hp, hiff, herr⟩ :=
          ih h (dictSet vars key r)
        refine ⟨(key, .testVar r) :: pre, suf, h1, vars1, by simp [he], ?_,
          ?_, ?_⟩
        · simp only [extendLoop1, hc, Bool.false_eq_true, if_false]
          exact hp
        · simp only [List.cons_append, extendLoop1, hc, Bool.false_eq_true,
            if_false]
          exact hiff
        · intro p2 rest2 hsuf
          obtain ⟨e, he1, he2⟩ := herr p2 rest2 hsuf
          refine ⟨e, he1, ?_⟩
          simp only [List.cons_append, extendLoop1, hc, Bool.false_eq_true,
            if_false]
          exact he2
    | defineVar v =>
      cases hg : dictGet vars key with
      | none =>
        refine ⟨[], (key, .defineVar v) :: rest, h, vars, by simp,
          by simp [extendLoop1], by simp [extendLoop1, hg], ?_⟩
        intro p2 rest2 hsuf
        rw [List.cons.injEq] at hsuf
        obtain ⟨he1, he2⟩ := hsuf
        subst he1
        exact ⟨.undeclaredVariable key, by simp [extendLoop1, hg],
          by simp [extendLoop1, hg]⟩
      | some r =>
        obtain ⟨pre, suf, h1, vars1, he, hp, hiff, herr⟩ :=
          ih (heapDefine h r v) vars
        refine ⟨(key, .defineVar v) :: pre, suf, h1, vars1, by simp [he], ?_,
          ?_, ?_⟩
        · simp only [extendLoop1, hg]
          exact hp
        · simp only [List.cons_append, extendLoop1, hg]
          exact hiff
        · intro p2 rest2 hsuf
          obtain ⟨e, he1, he2⟩ := herr p2 rest2 hsuf
          refine ⟨e, he1, ?_⟩
          simp only [List.cons_append, extendLoop1, hg]
          exact he2
    | undefineVar =>
      cases hg : dictGet vars key with
      | none =>
        refine ⟨[], (key, .undefineVar) :: rest, h, vars, by simp,
          by simp [extendLoop1], by simp [extendLoop1, hg], ?_⟩
        intro p2 rest2 hsuf
        rw [List.cons.injEq] at hsuf
        obtain ⟨he1, he2⟩ := hsuf
        subst he1
        exact ⟨.undeclaredVariable key, by simp [extendLoop1, hg],
          by simp [extendLoop1, hg]⟩
      | some r =>
        obtain ⟨pre, suf, h1, vars1, he, hp, hiff, herr⟩ :=
          ih (heapDefine h r none) vars
        refine ⟨(key, .undefineVar) :: pre, suf, h1, vars1, by simp [he], ?_,
          ?_, ?_⟩
        · simp only [extendLoop1, hg]
          exact hp
        · simp only [List.cons_append, extendLoop1, hg]
          exact hiff
        · intro p2 rest2 hsuf
          obtain ⟨e, he1, he2⟩ := herr p2 rest2 hsuf
          refine ⟨e, he1, ?_⟩
          simp only [List.cons_append, extendLoop1, hg]
          exact he2

theorem extendLoop2_partial {F A V : Type} (h : Heap F A V)
    (vars : List (String × Ref)) (localVS : List (String × LocalVar V))
    (cd : List (String × Option V)) :
    ∃ pre suf h2,
      cd = pre ++ suf ∧
      extendLoop2 h vars localVS pre = (h2, none) ∧
      ((extendLoop2 h vars localVS cd).2 = none ↔ suf = []) ∧
      (∀ p rest, suf = p :: rest →
        ∃ e, extendLoop2 h2 vars localVS [p] = (h2, some e) ∧
          extendLoop2 h vars localVS cd = (h2, some e)) := by
  induction cd generalizing h with
  | nil =>
    refine ⟨[], [], h, by simp, by simp [extendLoop2],
      by simp [extendLoop2], ?_⟩
    intro p rest hsuf
    exact absurd hsuf (by simp)
  | cons p rest ih =>
    obtain ⟨key, value⟩ := p
    by_cases hc : dictContains localVS key = true
    · refine ⟨[], (key, value) :: rest, h, by simp, by simp [extendLoop2],
        by simp [extendLoop2, hc], ?_⟩
      intro p2 rest2 hsuf
      rw [List.cons.injEq] at hsuf
      obtain ⟨he1, he2⟩ := hsuf
      subst he1
      exact ⟨.multipleActions key, by simp [extendLoop2, hc],
        by simp [extendLoop2, hc]⟩
    · cases hg : dictGet vars key with
      | none =>
        obtain ⟨pre, suf, h2, he, hp, hiff, herr⟩ := ih h
        refine ⟨(key, value) :: pre, suf, h2, by simp [he], ?_, ?_, ?_⟩
        · simp only [extendLoop2, hc, Bool.false_eq_true, if_false, hg]
          exact hp
        · simp only [List.cons_append, extendLoop2, hc, Bool.false_eq_true,
            if_false, hg]
          exact hiff
        · intro p2 rest2 hsuf
          obtain ⟨e, he1, he2⟩ := herr p2 rest2 hsuf
          refine ⟨e, he1, ?_⟩
          simp only [List.cons_append, extendLoop2, hc, Bool.false_eq_true,
            if_false, hg]
          exact he2
      | some r =>
        obtain ⟨pre, suf, h2, he, hp, hiff, herr⟩ := ih (heapDefine h r value)
        refine ⟨(key, value) :: pre, suf, h2, by simp [he], ?_, ?_, ?_⟩
        · simp only [extendLoop2, hc, Bool.false_eq_true, if_false, hg]
          exact hp
        · simp only [List.cons_append, extendLoop2, hc, Bool.false_eq_true,
            if_false, hg]
          exact hiff
        · intro p2 rest2 hsuf
          obtain ⟨e, he1, he2⟩ := herr p2 rest2 hsuf
          refine ⟨e, he1, ?_⟩
          simp only [List.cons_append, extendLoop2, hc, Bool.false_eq_true,
            if_false, hg]
          exact he2

theorem extendLoop2_append_none {F A V : Type} (h : Heap F A V)
    (vars : List (String × Ref)) (localVS : List (String × LocalVar V))
    (pre xs : List (String × Option V)) (h2 : Heap F A V)
    (hpre : extendLoop2 h vars localVS pre = (h2, none)) :
    extendLoop2 h vars localVS (pre ++ xs) = extendLoop2 h2 vars localVS xs := by
  induction pre generalizing h with
  | nil =>
    simp only [extendLoop2] at hpre
    injection hpre with ha hb
    subst ha
    simp
  | cons p rest ih =>
    obtain ⟨key, value⟩ := p
    by_cases hc : dictContains localVS key = true
    · simp [extendLoop2, hc] at hpre
    · simp only [List.cons_append, extendLoop2, hc, Bool.false_eq_true,
        if_false] at hpre ⊢
      cases hg : dictGet vars key with
      | none =>
        rw [hg] at hpre
        exact ih h hpre
      | some r =>
        rw [hg] at hpre
        exact ih (heapDefine h r value) hpre

theorem extendLoop2_skip {F A V : Type} (h : Heap F A V)
    (vars : List (String × Ref)) (localVS : List (String × LocalVar V))
    (pre : List (String × Option V)) (k : String) (v : Option V)
    (rest : List (String × Option V))
    (hl : dictContains localVS k = false) (hv : dictGet vars k = none) :
    extendLoop2 h vars localVS (pre ++ (k, v) :: rest) =
      extendLoop2 h vars localVS (pre ++ rest) := by
  induction pre generalizing h with
  | nil => simp [extendLoop2, hl, hv]
  | cons p pre2 ih =>
    obtain ⟨key, value⟩ := p
    by_cases hc : dictContains localVS key = true
    · simp [extendLoop2, hc]
    · simp only [List.cons_append, extendLoop2, hc, Bool.false_eq_true,
        if_false]
      cases hg : dictGet vars key with
      | none => exact ih h
      | some r => exact ih (heapDefine h r value)

theorem extend_of_loop1_err {F A V : Type} (self : VarSpace) (h : Heap F A V)
    (cls : PyCls F A V) (h1 : Heap F A V) (v1 : List (String × Ref))
    (e : VarError)
    (hres : extendLoop1 h self.vars cls.local_var_space = (h1, v1, some e)) :
    self.extend h cls = (h1, { self with vars := v1 }, some e) := by
  unfold VarSpace.extend
  rw [hres]

theorem extend_eq_of_loops {F A V : Type} (self : VarSpace) (h : Heap F A V)
    (cls : PyCls F A V) (h1 : Heap F A V) (v1 : List (String × Ref))
    (h2 : Heap F A V) (e2 : Option VarError)
    (hres1 : extendLoop1 h self.vars cls.local_var_space = (h1, v1, none))
    (hres2 : extendLoop2 h1 v1 cls.local_var_space cls.cls_dict = (h2, e2)) :
    self.extend h cls = (h2, { self with vars := v1 }, e2) := by
  unfold VarSpace.extend
  rw [hres1]
  show (match extendLoop2 h1 v1 cls.local_var_space cls.cls_dict with
        | (h2, e) => (h2, { self with vars := v1 }, e)) =
    (h2, { self with vars := v1 }, e2)
  rw [hres2]

/-- C3 (amended): `join` and `extend` raise the taxonomy errors eagerly
at the first offending entry, but a failing call does not leave the
namespace under construction unchanged: entries processed before the
offending one remain applied.  A failing `join` leaves the mapping equal
to the original one followed by exactly the prefix of `other`'s entries
preceding the offending entry — the whole of `other` exactly when no
error is raised — and the error is the duplicate-declaration error for
the offending key, whose name is already present at that point.  A
failing `extend` likewise returns the heap and mapping exactly as
updated by the successfully processed prefix of the local-variable-space
loop (or, when that loop completes, of the class-dictionary loop),
together with the error produced by the first offending entry alone. -/
theorem c3_partial_update_on_error {F A V : Type} :
    (∀ (self other : VarSpace) (ctx : String),
      ∃ pre suf, other.vars = pre ++ suf ∧
        (self.join other ctx).1.vars = self.vars ++ pre ∧
        ((self.join other ctx).2 = none ↔ suf = []) ∧
        (∀ key r rest, suf = (key, r) :: rest →
          dictContains (self.vars ++ pre) key = true ∧
          (self.join other ctx).2 =
            some (.duplicateDeclaration key ctx))) ∧
    (∀ (self : VarSpace) (h : Heap F A V) (cls : PyCls F A V),
      ∃ pre suf h1 vars1,
        cls.local_var_space = pre ++ suf ∧
        extendLoop1 h self.vars pre = (h1, vars1, none) ∧
        ((extendLoop1 h self.vars cls.local_var_space).2.2 = none ↔
          suf = []) ∧
        (∀ p rest, suf = p :: rest →
          ∃ e, extendLoop1 h1 vars1 [p] = (h1, vars1, some e) ∧
            self.extend h cls = (h1, { self with vars := vars1 }, some e))) ∧
    (∀ (self : VarSpace) (h h1 : Heap F A V) (vars1 : List (String × Ref))
        (cls : PyCls F A V),
      extendLoop1 h self.vars cls.local_var_space = (h1, vars1, none) →
      ∃ pre suf h2,
        cls.cls_dict = pre ++ suf ∧
        extendLoop2 h1 vars1 cls.local_var_space pre = (h2, none) ∧
        ((self.extend h cls).2.2 = none ↔ suf = []) ∧
        (∀ p rest, suf = p :: rest →
          ∃ e, extendLoop2 h2 vars1 cls.local_var_space [p] = (h2, some e) ∧
            self.extend h cls = (h2, { self with vars := vars1 }, some e))) := by
  refine ⟨?_, ?_, ?_⟩
  · intro self other ctx
    obtain ⟨pre, suf, he, h1, h2, h3⟩ :=
      joinAux_partial_exact self.vars other.vars ctx
    refine ⟨pre, suf, he, ?_, ?_, ?_⟩
    · rw [join_vars_eq]
      exact h1
    · rw [join_err_eq]
      exact h2
    · intro key r rest hsuf
      obtain ⟨hc, herr⟩ := h3 key r rest hsuf
      exact ⟨hc, by rw [join_err_eq]; exact herr⟩
  · intro self h cls
    obtain ⟨pre, suf, h1, vars1, he, hp, hiff, herr⟩ :=
      extendLoop1_partial h self.vars cls.local_var_space
    refine ⟨pre, suf, h1, vars1, he, hp, hiff, ?_⟩
    intro p rest hsuf
    obtain ⟨e, he1, he2⟩ := herr p rest hsuf
    exact ⟨e, he1, extend_of_loop1_err self h cls h1 vars1 e he2⟩
  · intro self h h1 vars1 cls hres1
    obtain ⟨pre, suf, h2, he, hp, hiff, herr⟩ :=
      extendLoop2_partial h1 vars1 cls.local_var_space cls.cls_dict
    refine ⟨pre, suf, h2, he, hp, ?_, ?_⟩
    · rcases hres2 : extendLoop2 h1 vars1 cls.local_var_space cls.cls_dict
        with ⟨h2f, e2f⟩
      have hext := extend_eq_of_loops self h cls h1 vars1 h2f e2f hres1 hres2
      rw [hext]
      rw [hres2] at hiff
      simpa using hiff
    · intro p rest hsuf
      obtain ⟨e, he1, he2⟩ := herr p rest hsuf
      exact ⟨e, he1,
        extend_eq_of_loops self h cls h1 vars1 h2 (some e) hres1 he2⟩

theorem c3_partial_update_on_error_witness :
    ∃ pre suf, ([("a", 0), ("b", 2)] : List (String × Ref)) = pre ++ suf ∧
      ((⟨[("b", 1)], []⟩ : VarSpace).join
        ⟨[("a", 0), ("b", 2)], []⟩ "C").1.vars = [("b", 1)] ++ pre ∧
      (((⟨[("b", 1)], []⟩ : VarSpace).join
        ⟨[("a", 0), ("b", 2)], []⟩ "C").2 = none ↔ suf = []) ∧
      (∀ key r rest, suf = (key, r) :: rest →
        dictContains ([("b", 1)] ++ pre) key = true ∧
        ((⟨[("b", 1)], []⟩ : VarSpace).join
          ⟨[("a", 0), ("b", 2)], []⟩ "C").2 =
          some (.duplicateDeclaration key "C")) :=
  (c3_partial_update_on_error (F := Nat) (A := Nat) (V := Nat)).1
    ⟨[("b", 1)], []⟩ ⟨[("a", 0), ("b", 2)], []⟩ "C"

/-- C4 (amended): a `DefineVar` or `UndefineVar` directive processed by
`extend` — at any position in the definition body — whose target name is
not present in the composed namespace when it is processed makes
`extend` fail with `UndeclaredVariableError`; a bare assignment (at any
position) whose name is neither in the local variable space nor in the
composed namespace is silently skipped, leaving the result of `extend`
unchanged; when the target name is present, processing the directive or
bare assignment updates exactly that variable's object with the new
default value (`heapDefine` at its reference) and continues, and no
variable's field factory or constructor arguments are ever changed by
`extend`. -/
theorem c4_undeclared_variable {F A V : Type} :
    (∀ (self : VarSpace) (h h1 : Heap F A V) (vars1 : List (String × Ref))
        (qn : String) (mem : List String) (pre : List (String × LocalVar V))
        (k : String) (v : Option V) (rest : List (String × LocalVar V))
        (cd : List (String × Option V)) (slots : List (String × Slot F A)),
      extendLoop1 h self.vars pre = (h1, vars1, none) →
      dictGet vars1 k = none →
        (self.extend h
          ⟨qn, mem, pre ++ (k, .defineVar v) :: rest, cd, slots⟩).2.2 =
          some (.undeclaredVariable k)) ∧
    (∀ (self : VarSpace) (h h1 : Heap F A V) (vars1 : List (String × Ref))
        (qn : String) (mem : List String) (pre : List (String × LocalVar V))
        (k : String) (rest : List (String × LocalVar V))
        (cd : List (String × Option V)) (slots : List (String × Slot F A)),
      extendLoop1 h self.vars pre = (h1, vars1, none) →
      dictGet vars1 k = none →
        (self.extend h
          ⟨qn, mem, pre ++ (k, .undefineVar) :: rest, cd, slots⟩).2.2 =
          some (.undeclaredVariable k)) ∧
    (∀ (self : VarSpace) (h h1 : Heap F A V) (vars1 : List (String × Ref))
        (qn : String) (mem : List String) (lvs : List (String × LocalVar V))
        (cdpre : List (String × Option V)) (k : String) (v : Option V)
        (cdrest : List (String × Option V)) (slots : List (String × Slot F A)),
      extendLoop1 h self.vars lvs = (h1, vars1, none) →
      dictContains lvs k = false →
      dictGet vars1 k = none →
        self.extend h ⟨qn, mem, lvs, cdpre ++ (k, v) :: cdrest, slots⟩ =
          self.extend h ⟨qn, mem, lvs, cdpre ++ cdrest, slots⟩) ∧
    (∀ (self : VarSpace) (h h1 : Heap F A V) (vars1 : List (String × Ref))
        (pre : List (String × LocalVar V)) (k : String) (v : Option V)
        (rest : List (String × LocalVar V)) (r : Ref),
      extendLoop1 h self.vars pre = (h1, vars1, none) →
      dictGet vars1 k = some r →
        extendLoop1 h self.vars (pre ++ (k, .defineVar v) :: rest) =
          extendLoop1 (heapDefine h1 r v) vars1 rest) ∧
    (∀ (self : VarSpace) (h h1 : Heap F A V) (vars1 : List (String × Ref))
        (pre : List (String × LocalVar V)) (k : String)
        (rest : List (String × LocalVar V)) (r : Ref),
      extendLoop1 h self.vars pre = (h1, vars1, none) →
      dictGet vars1 k = some r →
        extendLoop1 h self.vars (pre ++ (k, .undefineVar) :: rest) =
          extendLoop1 (heapDefine h1 r none) vars1 rest) ∧
    (∀ (h1 h2 : Heap F A V) (vars1 : List (String × Ref))
        (lvs : List (String × LocalVar V)) (cdpre : List (String × Option V))
        (k : String) (v : Option V) (cdrest : List (String × Option V))
        (r : Ref),
      extendLoop2 h1 vars1 lvs cdpre = (h2, none) →
      dictContains lvs k = false →
      dictGet vars1 k = some r →
        extendLoop2 h1 vars1 lvs (cdpre ++ (k, v) :: cdrest) =
          extendLoop2 (heapDefine h2 r v) vars1 lvs cdrest) ∧
    (∀ (self : VarSpace) (h : Heap F A V) (cls : PyCls F A V) (r : Ref),
      (((self.extend h cls).1) r).field_type = (h r).field_type ∧
      (((self.extend h cls).1) r).args = (h r).args) := by
  refine ⟨?_, ?_, ?_, ?_, ?_, ?_,
    fun self h cls r => extend_fields self h cls r⟩
  · intro self h h1 vars1 qn mem pre k v rest cd slots hpre hget
    have hstep := extendLoop1_append_none h self.vars pre
      ((k, .defineVar v) :: rest) h1 vars1 hpre
    have herr : extendLoop1 h1 vars1 ((k, .defineVar v) :: rest) =
        (h1, vars1, some (.undeclaredVariable k)) := by
      simp [extendLoop1, hget]
    exact extend_err_of_loop1 self h _ h1 vars1 _ (hstep.trans herr)
  · intro self h h1 vars1 qn mem pre k rest cd slots hpre hget
    have hstep := extendLoop1_append_none h self.vars pre
      ((k, .undefineVar) :: rest) h1 vars1 hpre
    have herr : extendLoop1 h1 vars1 ((k, .undefineVar) :: rest) =
        (h1, vars1, some (.undeclaredVariable k)) := by
      simp [extendLoop1, hget]
    exact extend_err_of_loop1 self h _ h1 vars1 _ (hstep.trans herr)
  · intro self h h1 vars1 qn mem lvs cdpre k v cdrest slots hres1 hl hv
    rcases hres2 : extendLoop2 h1 vars1 lvs (cdpre ++ cdrest) with ⟨h2, e2⟩
    have hskip := extendLoop2_skip h1 vars1 lvs cdpre k v cdrest hl hv
    have hA := extend_eq_of_loops self h
      ⟨qn, mem, lvs, cdpre ++ (k, v) :: cdrest, slots⟩ h1 vars1 h2 e2 hres1
      (hskip.trans hres2)
    have hB := extend_eq_of_loops self h
      ⟨qn, mem, lvs, cdpre ++ cdrest, slots⟩ h1 vars1 h2 e2 hres1 hres2
    rw [hA, hB]
  · intro self h h1 vars1 pre k v rest r hpre hget
    have hstep := extendLoop1_append_none h self.vars pre
      ((k, .defineVar v) :: rest) h1 vars1 hpre
    rw [hstep]
    simp [extendLoop1, hget]
  · intro self h h1 vars1 pre k rest r hpre hget
    have hstep := extendLoop1_append_none h self.vars pre
      ((k, .undefineVar) :: rest) h1 vars1 hpre
    rw [hstep]
    simp [extendLoop1, hget]
  · intro h1 h2 vars1 lvs cdpre k v cdrest r hpre hl hget
    have hstep := extendLoop2_append_none h1 vars1 lvs cdpre
      ((k, v) :: cdrest) h2 hpre
    rw [hstep]
    simp [extendLoop2, hl, hget]

theorem c4_undeclared_variable_witness :
    (VarSpace.extend VarSpace.empty
      (fun _ => (⟨0, 0, none⟩ : TestVar Nat Nat Nat))
      ⟨"C", [], [("w", .testVar 3), ("x", .defineVar (some 5))], [], []⟩).2.2 =
      some (.undeclaredVariable "x") :=
  (c4_undeclared_variable (F := Nat) (A := Nat) (V := Nat)).1
    VarSpace.empty (fun _ => ⟨0, 0, none⟩) (fun _ => ⟨0, 0, none⟩)
    [("w", 3)] "C" [] [("w", .testVar 3)] "x" (some 5) [] [] [] rfl rfl
